import Mathlib

/-!
Verification of the envox `KEY=VALUE` configuration parser.

Shallow embedding of the parser over `List Char` (JavaScript strings are
modelled as lists of characters).  The embedding follows the source files:
`index.ts` (class `Envox`, the async variant with schema support), the
near-duplicate variant with map-mode input, `utils.ts`, `helpers.ts`,
`constants.ts` and `expansions.ts`.
-/

set_option maxRecDepth 20000

namespace Envox

/-- Shorthand: characters of a string literal. -/
def cs (s : String) : List Char := s.data

/-- Characters matched by JavaScript `String.prototype.trim` and the regex
class `\s` (WhiteSpace plus LineTerminator code points). -/
def isJsWs (c : Char) : Bool :=
  c == ' ' || c == '\t' || c == '\n' || c == '\r' || c == '\x0b' || c == '\x0c' ||
  c == '\xa0' || c == '\u1680' || c == '\u2000' || c == '\u2001' || c == '\u2002' ||
  c == '\u2003' || c == '\u2004' || c == '\u2005' || c == '\u2006' || c == '\u2007' ||
  c == '\u2008' || c == '\u2009' || c == '\u200a' || c == '\u2028' || c == '\u2029' ||
  c == '\u202f' || c == '\u205f' || c == '\u3000' || c == '\ufeff'

/-- JavaScript `String.prototype.trim` (drop whitespace at both ends). -/
def trim (l : List Char) : List Char :=
  ((l.dropWhile isJsWs).reverse.dropWhile isJsWs).reverse

/-- JavaScript `content.split(sep)` for a single-character separator. -/
def splitOnC (sep : Char) : List Char → List (List Char)
  | [] => [[]]
  | c :: r =>
    if c = sep then [] :: splitOnC sep r
    else
      match splitOnC sep r with
      | [] => [[c]]
      | h :: t => (c :: h) :: t

/-- JavaScript `s.indexOf(c)` for a single character (`none` models `-1`). -/
def indexOfC (c : Char) : List Char → Option Nat
  | [] => none
  | d :: r => if d = c then some 0 else (indexOfC c r).map (· + 1)

/-- JavaScript `s.startsWith(p)` for a multi-character literal `p`. -/
def startsWithL (l p : List Char) : Bool := p.isPrefixOf l

/-- JavaScript `s.startsWith(c)` for a single character. -/
def startsWithC (l : List Char) (c : Char) : Bool := l.head? == some c

/-- JavaScript `s.endsWith(c)` for a single character. -/
def endsWithC (l : List Char) (c : Char) : Bool := l.getLast? == some c

/-- JavaScript `s.slice(1, -1)`. -/
def slice1m1 (l : List Char) : List Char := (l.drop 1).dropLast

/-- JavaScript `s.replace(pat, rep)` with a global regex whose pattern is the
two-character literal `a` `b`: left-to-right, non-overlapping replacement. -/
def replacePair (a b : Char) (rep : List Char) : List Char → List Char
  | [] => []
  | [c] => [c]
  | c :: d :: rest =>
    if c = a ∧ d = b then rep ++ replacePair a b rep rest
    else c :: replacePair a b rep (d :: rest)

/-- `value.replace(/"/g, '\\"')`: the only escaping performed by the
serializer (`fromObject`). -/
def escQuote : List Char → List Char
  | [] => []
  | c :: r => if c = '"' then '\\' :: '"' :: escQuote r else c :: escQuote r

/-- The unescaping applied to double-quoted values:
`.replace(/\\"/g, '"').replace(/\\\\/g, '\\')`. -/
def unescapeDq (l : List Char) : List Char :=
  replacePair '\\' '\\' ['\\'] (replacePair '\\' '"' ['"'] l)

/-- `handleQuotes` (identical in every variant of the source): strip a
matching outer quote pair from the trimmed value; unescape `\"` and `\\`
inside double quotes; otherwise return the original value. -/
def handleQuotes (value : List Char) : List Char :=
  let t := trim value
  if startsWithC t '"' && endsWithC t '"' then unescapeDq (slice1m1 t)
  else if startsWithC t '\'' && endsWithC t '\'' then slice1m1 t
  else value

/-- First character of `[A-Za-z_][A-Za-z0-9_]*`. -/
def isIdentStart (c : Char) : Bool :=
  ('A' ≤ c && c ≤ 'Z') || ('a' ≤ c && c ≤ 'z') || c == '_'

/-- Continuation character of `[A-Za-z_][A-Za-z0-9_]*`. -/
def isIdentChar (c : Char) : Bool :=
  isIdentStart c || ('0' ≤ c && c ≤ '9')

/-- `[A-Za-z0-9]` (note: excludes the underscore). -/
def isAlnum (c : Char) : Bool :=
  ('A' ≤ c && c ≤ 'Z') || ('a' ≤ c && c ≤ 'z') || ('0' ≤ c && c ≤ '9')

/-- `isValidKey`: `REGEX.VALID_KEY.test(key) && !key.includes(' ')`. -/
def isValidKey (k : List Char) : Bool :=
  (match k with
   | [] => false
   | c :: r => isIdentStart c && r.all isIdentChar) && !(k.contains ' ')

end Envox

namespace Envox

/-- A binding environment (`Map<string, string>` used only through `get`). -/
abbrev Lk := List Char → Option (List Char)

/-- `new Map()`. -/
def emptyEnv : Lk := fun _ => none

/-- `map.set(k, v)`. -/
def setEnv (m : Lk) (k v : List Char) : Lk :=
  fun x => if x = k then some v else m x

/-- `envMap.get(name) || ''` (the `undefined` and empty-string cases both
produce the empty string). -/
def lookupOr (env : Lk) (name : List Char) : List Char :=
  match env name with
  | some v => v
  | none => []

/-- Scan to the first `}`: returns the content before it and the rest after
it (`none` when there is no closing brace). -/
def splitBrace : List Char → Option (List Char × List Char)
  | [] => none
  | c :: r =>
    if c = '\x7d' then some ([], r)
    else (splitBrace r).map (fun p => (c :: p.1, p.2))

theorem splitBrace_rest_lt :
    ∀ (l a b : List Char), splitBrace l = some (a, b) → b.length < l.length := by
  intro l
  induction l with
  | nil => intro a b h; simp [splitBrace] at h
  | cons c r ih =>
    intro a b h
    by_cases hc : c = '\x7d'
    · simp only [splitBrace, if_pos hc, Option.some.injEq, Prod.mk.injEq] at h
      obtain ⟨h1, h2⟩ := h
      subst h2
      simp only [List.length_cons]
      omega
    · simp only [splitBrace, if_neg hc, Option.map_eq_some', Prod.ext_iff] at h
      obtain ⟨p, hp, hab⟩ := h
      have := ih p.1 p.2 (by rw [hp])
      have hb : b = p.2 := hab.2.symm
      subst hb
      simp only [List.length_cons]
      omega

theorem length_dropWhile_le' (p : Char → Bool) :
    ∀ l : List Char, (l.dropWhile p).length ≤ l.length := by
  intro l
  induction l with
  | nil => simp
  | cons c r ih =>
    by_cases hc : p c
    · simp [List.dropWhile_cons, hc]; omega
    · simp [List.dropWhile_cons, hc]

/-- `expandValue` using `REGEX.VAR_EXPANSION` from `constants.ts`:
`/\$\{([^}]+)\}|\$([A-Za-z_][A-Za-z0-9_]*?)(?=[^A-Za-z0-9]|$)/g`.  The bare
form is lazy with a lookahead for a non-alphanumeric character, so the
matched name is the first identifier-start character followed by the run of
alphanumerics (an underscore satisfies the lookahead and ends the name).
Fuel-based recursion: every step consumes at least one character, so a fuel
of `length + 1` (supplied by `expandL`) never runs out. -/
def expandLF (env : Lk) : Nat → List Char → List Char
  | 0, l => l
  | _ + 1, [] => []
  | f + 1, '$' :: '\x7b' :: r2 =>
    match splitBrace r2 with
    | some (content, after) =>
      if content.isEmpty then '$' :: expandLF env f ('\x7b' :: r2)
      else lookupOr env content ++ expandLF env f after
    | none => '$' :: expandLF env f ('\x7b' :: r2)
  | f + 1, '$' :: c :: r2 =>
    if isIdentStart c then
      lookupOr env (c :: r2.takeWhile isAlnum) ++ expandLF env f (r2.dropWhile isAlnum)
    else '$' :: expandLF env f (c :: r2)
  | _ + 1, ['$'] => ['$']
  | f + 1, c :: rest => c :: expandLF env f rest

/-- `expandValue(value, lookup)` from `expansions.ts` (single left-to-right
pass, replacement is `lookup(name) || ''`). -/
def expandL (env : Lk) (l : List Char) : List Char := expandLF env (l.length + 1) l

/-- `Envox.expandVariables` using the inline regex of `index.ts`:
`/\$\{([^}]+)\}|\$([A-Za-z_][A-Za-z0-9_]*)/g`.  The bare form is greedy:
the name is the maximal run of identifier characters (underscore included). -/
def expandGF (env : Lk) : Nat → List Char → List Char
  | 0, l => l
  | _ + 1, [] => []
  | f + 1, '$' :: '\x7b' :: r2 =>
    match splitBrace r2 with
    | some (content, after) =>
      if content.isEmpty then '$' :: expandGF env f ('\x7b' :: r2)
      else lookupOr env content ++ expandGF env f after
    | none => '$' :: expandGF env f ('\x7b' :: r2)
  | f + 1, '$' :: c :: r2 =>
    if isIdentStart c then
      lookupOr env (c :: r2.takeWhile isIdentChar) ++ expandGF env f (r2.dropWhile isIdentChar)
    else '$' :: expandGF env f (c :: r2)
  | _ + 1, ['$'] => ['$']
  | f + 1, c :: rest => c :: expandGF env f rest

/-- The greedy expansion of `index.ts`. -/
def expandG (env : Lk) (l : List Char) : List Char := expandGF env (l.length + 1) l

end Envox

deriving instance DecidableEq for Except

namespace Envox

/-- Per-parse configuration (`EnvoxOptions` with all fields defaulted).
Source defaults: all `true` except `expandVariables`. -/
structure Options where
  allowEmpty : Bool
  allowComments : Bool
  allowExport : Bool
  trimValues : Bool
  expandVariables : Bool
deriving DecidableEq, Repr

/-- The default options of every variant. -/
def defaults : Options := ⟨true, true, true, true, false⟩

/-- Default options with `expandVariables: true`. -/
def defaultsX : Options := ⟨true, true, true, true, true⟩

/-- `EnvVariable { key, value, line }`. -/
structure EnvVar where
  key : List Char
  value : List Char
  line : Nat
deriving DecidableEq, Repr

/-- `EnvoxParseError { line, message, content }`. -/
structure PError where
  line : Nat
  message : List Char
  content : List Char
deriving DecidableEq, Repr

/-- `processValue` of the map-mode variant and of `utils.ts`: unquote first,
then (if `trimValues`) trim, then (if `expandVariables`) expand. -/
def processValue (o : Options) (env : Lk) (value : List Char) : List Char :=
  let v1 := handleQuotes value
  let v2 := if o.trimValues then trim v1 else v1
  if o.expandVariables then expandL env v2 else v2

/-- `parseLine(line, lineNumber, envMap)`: classify the trimmed line, strip
an `export ` prefix (exactly seven characters), split at the first `=`,
validate the key and normalize the value.  `Except.error` models the thrown
`EnvoxError` (whose `content` is the original untrimmed line). -/
def parseLine (o : Options) (line : List Char) (n : Nat) (env : Lk) :
    Except PError (Option EnvVar) :=
  let trimmedLine := trim line
  if trimmedLine.isEmpty then .ok none
  else if o.allowComments && startsWithC trimmedLine '#' then .ok none
  else
    let processedLine :=
      if o.allowExport && startsWithL trimmedLine (cs "export ") then trimmedLine.drop 7
      else trimmedLine
    match indexOfC '=' processedLine with
    | none =>
      if !o.allowEmpty then .error ⟨n, cs "Missing equals sign", line⟩ else .ok none
    | some i =>
      let key := trim (processedLine.take i)
      let value := processedLine.drop (i + 1)
      if !isValidKey key then
        .error ⟨n, cs "Invalid environment variable key: " ++ key, line⟩
      else .ok (some ⟨key, processValue o env value, n⟩)

/-- The accumulating state of the text-mode scan: the ordered binding list
`variables`, the ordered error list `errors`, and the progressive `envMap`. -/
structure ScanSt where
  vars : List EnvVar
  errs : List PError
  env : Lk

/-- One iteration of the text-mode loop: a produced binding is pushed and
made visible in `envMap`; a thrown error is pushed on the error list. -/
def scanStep (o : Options) (st : ScanSt) (line : List Char) (n : Nat) : ScanSt :=
  match parseLine o line n st.env with
  | .ok none => st
  | .ok (some v) => ⟨st.vars ++ [v], st.errs, setEnv st.env v.key v.value⟩
  | .error e => ⟨st.vars, st.errs ++ [e], st.env⟩

/-- The text-mode loop over all lines (1-based line numbers, never aborts). -/
def scanLines (o : Options) : List (List Char) → Nat → ScanSt → ScanSt
  | [], _, st => st
  | l :: rest, n, st => scanLines o rest (n + 1) (scanStep o st l n)

/-- The resolved mapping (`Record<string, string>`), in JavaScript object
key-insertion order. -/
abbrev RMap := List (List Char × List Char)

/-- `obj[key] = value`: overwrite in place if the key exists (JavaScript
objects keep the first-insertion position), else append. -/
def objSet (m : RMap) (k v : List Char) : RMap :=
  if m.any (fun p => p.1 == k) then
    m.map (fun p => if p.1 == k then (p.1, v) else p)
  else m ++ [(k, v)]

/-- `toObject(variables)`: last-wins flattening of the binding list. -/
def toObject (vars : List EnvVar) : RMap :=
  vars.foldl (fun m v => objSet m v.key v.value) []

/-- Lookup in the resolved mapping. -/
def getObj (m : RMap) (k : List Char) : Option (List Char) :=
  (m.find? (fun p => p.1 == k)).map (fun p => p.2)

/-- The schema capability: a transformation of the resolved map that either
succeeds with an output map or fails with a list of errors. -/
abbrev SchemaFn := RMap → Except (List PError) RMap

/-- `ParseResult<TOut>`: `{ok:true, data, vars}` or `{ok:false, errors}`. -/
inductive Outcome where
  | success (vars : List EnvVar) (data : RMap)
  | failure (errs : List PError)
deriving DecidableEq, Repr

/-- Map-mode bindings: filter out invalid keys and undefined values into
`tempMap`, then expand each kept value against that complete map (not a
progressive one); every binding gets `line = 0`. -/
def mapModeVars (o : Options) (entries : List (List Char × Option (List Char))) :
    List EnvVar :=
  let temp : RMap := entries.filterMap (fun e =>
    match e.2 with
    | some v => if isValidKey e.1 then some (e.1, v) else none
    | none => none)
  let lk : Lk := fun k => temp.foldl (fun acc p => if p.1 = k then some p.2 else acc) none
  temp.map (fun p => ⟨p.1, if o.expandVariables then expandL lk p.2 else p.2, 0⟩)

/-- `Envox.parse(source)` of the map-mode variant: scan (text mode) or
filter-and-expand (map mode); if any error was collected return
`{ok:false, errors}` before ever touching the schema; otherwise flatten and
optionally run the schema. -/
def parseS (o : Options) (sch : Option SchemaFn)
    (source : List Char ⊕ List (List Char × Option (List Char))) : Outcome :=
  let acc : List EnvVar × List PError :=
    match source with
    | .inl content =>
      let st := scanLines o (splitOnC '\n' content) 1 ⟨[], [], emptyEnv⟩
      (st.vars, st.errs)
    | .inr entries => (mapModeVars o entries, [])
  if acc.2.isEmpty then
    let obj := toObject acc.1
    match sch with
    | some f =>
      match f obj with
      | .ok d => .success acc.1 d
      | .error es => .failure es
    | none => .success acc.1 obj
  else .failure acc.2

end Envox

namespace IndexTs

open Envox

/-- `Envox.processValue` of `index.ts`: trim first (if `trimValues`), then
unquote, then (if `expandVariables`) expand with the greedy regex.  Note the
order differs from the map-mode/`utils.ts` variant: unquoting happens after
trimming and the unquoted content is never re-trimmed. -/
def processValue (o : Options) (env : Lk) (value : List Char) : List Char :=
  let v1 := if o.trimValues then trim value else value
  let v2 := handleQuotes v1
  if o.expandVariables then expandG env v2 else v2

/-- `Envox.parseLine` of `index.ts` (identical line handling, but using the
`index.ts` value pipeline). -/
def parseLine (o : Options) (line : List Char) (n : Nat) (env : Lk) :
    Except PError (Option EnvVar) :=
  let trimmedLine := trim line
  if trimmedLine.isEmpty then .ok none
  else if o.allowComments && startsWithC trimmedLine '#' then .ok none
  else
    let processedLine :=
      if o.allowExport && startsWithL trimmedLine (cs "export ") then trimmedLine.drop 7
      else trimmedLine
    match indexOfC '=' processedLine with
    | none =>
      if !o.allowEmpty then .error ⟨n, cs "Missing equals sign", line⟩ else .ok none
    | some i =>
      let key := trim (processedLine.take i)
      let value := processedLine.drop (i + 1)
      if !isValidKey key then
        .error ⟨n, cs "Invalid environment variable key: " ++ key, line⟩
      else .ok (some ⟨key, processValue o env value, n⟩)

end IndexTs

namespace Envox

/-- `NEED_QUOTES` test: `/[\s"'$\\]/.test(value)`. -/
def needsQuotingB (v : List Char) : Bool :=
  v.any (fun c => isJsWs c || c == '"' || c == '\'' || c == '$' || c == '\\')

/-- The serialized form of one value: wrap in double quotes escaping only
embedded `"` when `needsQuoting`, else emit verbatim. -/
def quoteVal (v : List Char) : List Char :=
  if needsQuotingB v then '"' :: escQuote v ++ ['"'] else v

/-- One serialized line of `fromObject`. -/
def entryLine (pfx k v : List Char) : List Char := pfx ++ k ++ '=' :: quoteVal v

/-- JavaScript `Array.prototype.join(sep)` for a one-character separator. -/
def joinC (sep : Char) : List (List Char) → List Char
  | [] => []
  | [l] => l
  | l :: ls => l ++ sep :: joinC sep ls

/-- `fromObject(obj, includeExport)` of `helpers.ts` / `index.ts`. -/
def fromObject (includeExport : Bool) (m : RMap) : List Char :=
  joinC '\n' (m.map (fun p =>
    entryLine (if includeExport then cs "export " else []) p.1 p.2))

/-- `line.replace(/^\s*export\s+/, '')`: strip leading whitespace, the
literal `export`, and at least one whitespace character, when such an
anchored match exists; otherwise the line is unchanged. -/
def stripExportWs (l : List Char) : List Char :=
  let l1 := l.dropWhile isJsWs
  if startsWithL l1 (cs "export") then
    match l1.drop 6 with
    | c :: r => if isJsWs c then (c :: r).dropWhile isJsWs else l
    | [] => l
  else l

/-- `looksLikeEnvVar` / `isLikeEnvVar`: strip an optional `export` prefix
with any whitespace, require a `=`, and test the key with `ENV_VAR_LIKE`
(the bare regex without the extra space check). -/
def looksLikeEnvVarB (line : List Char) : Bool :=
  let cleaned := stripExportWs line
  match indexOfC '=' cleaned with
  | none => false
  | some i =>
    match trim (cleaned.take i) with
    | [] => false
    | c :: r => isIdentStart c && r.all isIdentChar

/-- `isEnvFile(content)`: drop blank lines, exclude comment lines from the
denominator, and accept iff at least half of the counted lines look like
assignments.  (`validLines / totalLines >= 0.5` is modelled exactly as
`totalLines ≤ 2 * validLines`, which agrees with the floating-point
comparison at every realistic line count.) -/
def isEnvFileB (content : List Char) : Bool :=
  let lines := (splitOnC '\n' content).filter (fun l => !(trim l).isEmpty)
  if lines.isEmpty then false
  else
    let counted := (lines.map trim).filter (fun t => !startsWithC t '#')
    decide (0 < counted.length) &&
      decide (counted.length ≤ 2 * (counted.filter looksLikeEnvVarB).length)

/-- `true` iff the list contains two adjacent occurrences of `a`. -/
def hasAdj (a : Char) : List Char → Bool
  | c :: d :: r => (c == a && d == a) || hasAdj a (d :: r)
  | _ => false

/-- Side conditions on a value under which serialization round-trips: no
newline, no leading or trailing whitespace, and no two adjacent backslashes. -/
def goodVal (v : List Char) : Bool :=
  v.all (fun c => !(c == '\n')) &&
    v.head?.all (fun c => !isJsWs c) && v.getLast?.all (fun c => !isJsWs c) &&
    !hasAdj '\\' v

/-- The bindings produced by parsing the serialization of `m`, starting at
line `n`. -/
def bindingsFrom (n : Nat) : RMap → List EnvVar
  | [] => []
  | p :: t => ⟨p.1, p.2, n⟩ :: bindingsFrom (n + 1) t

end Envox

namespace Envox

theorem ws_char_facts (c : Char) (h : isJsWs c = true) :
    isIdentChar c = false ∧ c ≠ '=' ∧ c ≠ '"' ∧ c ≠ '\'' ∧ c ≠ '#' ∧ c ≠ '$' ∧ c ≠ '\\' := by
  simp only [isJsWs, Bool.or_eq_true, beq_iff_eq] at h
  rcases h with ((((((((((((((((((((((((rfl|rfl)|rfl)|rfl)|rfl)|rfl)|rfl)|rfl)|rfl)|rfl)|rfl)|rfl)|rfl)|rfl)|rfl)|rfl)|rfl)|rfl)|rfl)|rfl)|rfl)|rfl)|rfl)|rfl)|rfl) <;> decide

theorem identChar_not_ws (c : Char) (h : isIdentChar c = true) : isJsWs c = false := by
  cases hw : isJsWs c with
  | false => rfl
  | true => exact absurd h (by simp [(ws_char_facts c hw).1])

theorem identStart_identChar (c : Char) (h : isIdentStart c = true) : isIdentChar c = true := by
  simp [isIdentChar, h]

theorem identChar_ne_chars (c : Char) (h : isIdentChar c = true) :
    c ≠ '=' ∧ c ≠ '#' ∧ c ≠ '\n' ∧ c ≠ ' ' := by
  refine ⟨?_, ?_, ?_, ?_⟩ <;> (rintro rfl; exact absurd h (by decide))

theorem dropWhile_eq_self_of_head (p : Char → Bool) (l : List Char)
    (h : l.head?.all (fun c => !p c) = true) : l.dropWhile p = l := by
  cases l with
  | nil => rfl
  | cons c r =>
    simp only [List.head?_cons, Option.all_some, Bool.not_eq_true'] at h
    simp [List.dropWhile_cons, h]

theorem trim_eq_self (l : List Char) (h1 : l.head?.all (fun c => !isJsWs c) = true)
    (h2 : l.getLast?.all (fun c => !isJsWs c) = true) : trim l = l := by
  unfold trim
  rw [dropWhile_eq_self_of_head _ _ h1]
  rw [dropWhile_eq_self_of_head _ _ (by rwa [List.head?_reverse])]
  exact l.reverse_reverse

end Envox

namespace Envox

theorem splitOnC_ne_nil (sep : Char) : ∀ l : List Char, splitOnC sep l ≠ [] := by
  intro l
  induction l with
  | nil => simp [splitOnC]
  | cons c r ih =>
    by_cases hc : c = sep
    · simp [splitOnC, hc]
    · simp only [splitOnC, if_neg hc]
      cases hsp : splitOnC sep r <;> simp

theorem splitOnC_no_sep (sep : Char) (l : List Char) (h : ∀ c ∈ l, c ≠ sep) :
    splitOnC sep l = [l] := by
  induction l with
  | nil => rfl
  | cons c r ih =>
    have hc : c ≠ sep := h c (List.mem_cons_self c r)
    simp only [splitOnC, if_neg hc]
    rw [ih (fun d hd => h d (List.mem_cons_of_mem c hd))]

theorem splitOnC_append (sep : Char) (l r : List Char) (h : ∀ c ∈ l, c ≠ sep) :
    splitOnC sep (l ++ sep :: r) = l :: splitOnC sep r := by
  induction l with
  | nil => simp [splitOnC]
  | cons c t ih =>
    have hc : c ≠ sep := h c (List.mem_cons_self c t)
    simp only [List.cons_append, splitOnC, if_neg hc]
    simp only [List.append_eq]
    rw [ih (fun d hd => h d (List.mem_cons_of_mem c hd))]

theorem splitOnC_joinC (sep : Char) :
    ∀ ls : List (List Char), ls ≠ [] → (∀ l ∈ ls, ∀ c ∈ l, c ≠ sep) →
      splitOnC sep (joinC sep ls) = ls := by
  intro ls
  induction ls with
  | nil => intro h; exact absurd rfl h
  | cons l ls' ih =>
    intro _ hall
    cases ls' with
    | nil => exact splitOnC_no_sep sep l (hall l (List.mem_cons_self l []))
    | cons x xs =>
      show splitOnC sep (l ++ sep :: joinC sep (x :: xs)) = l :: (x :: xs)
      rw [splitOnC_append sep l _ (hall l (List.mem_cons_self l _))]
      rw [ih (by simp) (fun m hm => hall m (List.mem_cons_of_mem l hm))]

theorem indexOfC_append (c : Char) (l r : List Char) (h : ∀ d ∈ l, d ≠ c) :
    indexOfC c (l ++ c :: r) = some l.length := by
  induction l with
  | nil => simp [indexOfC]
  | cons d t ih =>
    have hd : d ≠ c := h d (List.mem_cons_self d t)
    simp only [List.cons_append, indexOfC, if_neg hd]
    simp only [List.append_eq]
    rw [ih (fun e he => h e (List.mem_cons_of_mem d he))]
    simp

theorem replacePair_cons_ne (a b : Char) (rep : List Char) (c : Char) (l : List Char)
    (h : ¬(c = a ∧ l.head? = some b)) :
    replacePair a b rep (c :: l) = c :: replacePair a b rep l := by
  cases l with
  | nil => rfl
  | cons d r =>
    have hn : ¬(c = a ∧ d = b) := by simpa using h
    simp [replacePair, hn]

theorem escQuote_head_ne (v : List Char) : (escQuote v).head? ≠ some '"' := by
  cases v with
  | nil => simp [escQuote]
  | cons c r =>
    by_cases hc : c = '"' <;> simp [escQuote, hc]

theorem repl1_escQuote : ∀ v : List Char, replacePair '\\' '"' ['"'] (escQuote v) = v := by
  intro v
  induction v with
  | nil => rfl
  | cons c r ih =>
    by_cases hc : c = '"'
    · subst hc
      rw [show escQuote ('"' :: r) = '\\' :: '"' :: escQuote r by simp [escQuote]]
      rw [show replacePair '\\' '"' ['"'] ('\\' :: '"' :: escQuote r) =
            ['"'] ++ replacePair '\\' '"' ['"'] (escQuote r) by simp [replacePair]]
      rw [ih]
      rfl
    · rw [show escQuote (c :: r) = c :: escQuote r by simp [escQuote, hc]]
      rw [replacePair_cons_ne _ _ _ _ _ (fun hh => escQuote_head_ne r hh.2), ih]

theorem repl2_id : ∀ v : List Char, hasAdj '\\' v = false →
    replacePair '\\' '\\' ['\\'] v = v := by
  intro v
  induction v with
  | nil => intro _; rfl
  | cons c t ih =>
    intro h
    cases t with
    | nil => rfl
    | cons d r =>
      simp only [hasAdj, Bool.or_eq_false_iff, Bool.and_eq_false_iff] at h
      have hn : ¬(c = '\\' ∧ d = '\\') := by
        rcases h.1 with h1 | h1 <;> simp only [beq_eq_false_iff_ne] at h1
        · exact fun hh => h1 hh.1
        · exact fun hh => h1 hh.2
      rw [replacePair, if_neg hn, ih h.2]

theorem unescapeDq_escQuote (v : List Char) (h : hasAdj '\\' v = false) :
    unescapeDq (escQuote v) = v := by
  unfold unescapeDq
  rw [repl1_escQuote, repl2_id v h]

theorem escQuote_subset : ∀ (v : List Char) (c : Char), c ∈ escQuote v → c = '\\' ∨ c ∈ v := by
  intro v
  induction v with
  | nil => intro c hc; simp [escQuote] at hc
  | cons d r ih =>
    intro c hc
    by_cases hd : d = '"'
    · simp only [escQuote, if_pos hd, List.mem_cons] at hc
      rcases hc with rfl | rfl | hc
      · exact Or.inl rfl
      · exact Or.inr (by simp [hd])
      · rcases ih c hc with h | h
        · exact Or.inl h
        · exact Or.inr (List.mem_cons_of_mem d h)
    · simp only [escQuote, if_neg hd, List.mem_cons] at hc
      rcases hc with rfl | hc
      · exact Or.inr (List.mem_cons_self c r)
      · rcases ih c hc with h | h
        · exact Or.inl h
        · exact Or.inr (List.mem_cons_of_mem d h)

end Envox

namespace Envox

theorem valid_key_facts (k : List Char) (h : isValidKey k = true) :
    k ≠ [] ∧ ∀ c ∈ k, isIdentChar c = true := by
  cases k with
  | nil => simp [isValidKey] at h
  | cons c r =>
    simp only [isValidKey, Bool.and_eq_true] at h
    obtain ⟨⟨h1, h2⟩, _⟩ := h
    refine ⟨by simp, ?_⟩
    intro d hd
    rcases List.mem_cons.1 hd with rfl | hd
    · exact identStart_identChar d h1
    · exact (List.all_eq_true.1 h2) d hd

theorem needsQuoting_false_mem (v : List Char) (h : needsQuotingB v = false) :
    ∀ c ∈ v, isJsWs c = false ∧ c ≠ '"' ∧ c ≠ '\'' ∧ c ≠ '$' ∧ c ≠ '\\' := by
  intro c hc
  simp only [needsQuotingB] at h
  have h2 := (List.any_eq_false.1 h) c hc
  simp only [Bool.or_eq_true, beq_iff_eq, not_or, Bool.not_eq_true] at h2
  obtain ⟨⟨⟨⟨hws, hq⟩, hsq⟩, hd⟩, hbs⟩ := h2
  exact ⟨hws, hq, hsq, hd, hbs⟩

theorem handleQuotes_dq (x : List Char) :
    handleQuotes ('"' :: x ++ ['"']) = unescapeDq x := by
  have hlast : ('"' :: x ++ ['"']).getLast? = some '"' := by
    rw [show ('"' :: x ++ ['"']) = ('"' :: x) ++ ['"'] by simp]
    exact List.getLast?_concat _
  have htrim : trim ('"' :: x ++ ['"']) = '"' :: x ++ ['"'] :=
    trim_eq_self _
      (by rw [show ('"' :: x ++ ['"']).head? = some '"' from rfl]; decide)
      (by rw [hlast]; decide)
  have hs : startsWithC ('"' :: x ++ ['"']) '"' = true := by simp [startsWithC]
  have he : endsWithC ('"' :: x ++ ['"']) '"' = true := by
    simp only [endsWithC]
    rw [hlast]
    rfl
  have hsl : slice1m1 ('"' :: x ++ ['"']) = x := by
    simp only [slice1m1, List.drop_one, List.tail_cons]
    exact List.dropLast_concat
  simp only [handleQuotes, htrim, hs, he, Bool.and_self, if_pos, hsl]

theorem handleQuotes_plain (v : List Char) (h : needsQuotingB v = false) :
    handleQuotes v = v := by
  cases v with
  | nil => rfl
  | cons c r =>
    have hmem := needsQuoting_false_mem _ h
    have hhead : (c :: r).head?.all (fun d => !isJsWs d) = true := by
      simp [List.head?_cons, (hmem c (by simp)).1]
    have hlast : (c :: r).getLast?.all (fun d => !isJsWs d) = true := by
      have hne : (c :: r) ≠ [] := by simp
      rw [List.getLast?_eq_getLast _ hne]
      simp [(hmem _ (List.getLast_mem hne)).1]
    have htrim := trim_eq_self _ hhead hlast
    have h1 : startsWithC (c :: r) '"' = false := by
      simp [startsWithC, (hmem c (by simp)).2.1]
    have h2 : startsWithC (c :: r) '\'' = false := by
      simp [startsWithC, (hmem c (by simp)).2.2.1]
    simp [handleQuotes, htrim, h1, h2]

theorem not_startsWith_export (k rest : List Char) (hk : isValidKey k = true) :
    startsWithL (k ++ '=' :: rest) (cs "export ") = false := by
  cases hx : startsWithL (k ++ '=' :: rest) (cs "export ") with
  | false => rfl
  | true =>
    exfalso
    simp only [startsWithL] at hx
    obtain ⟨t, ht⟩ := List.isPrefixOf_iff_prefix.1 hx
    rcases Nat.lt_or_ge k.length 7 with hlt | hge
    · have h1 : (k ++ '=' :: rest)[k.length]? = some '=' := by
        rw [List.getElem?_append_right (le_refl k.length)]
        simp
      rw [← ht] at h1
      rw [List.getElem?_append_left (show k.length < (cs "export ").length by
        rw [show (cs "export ").length = 7 from rfl]; exact hlt)] at h1
      set i := k.length with hi
      interval_cases i <;> exact absurd h1 (by decide)
    · have h6 : (k ++ '=' :: rest)[6]? = (cs "export ")[6]? := by
        rw [← ht, List.getElem?_append_left (show (6 : Nat) < (cs "export ").length from by
          rw [show (cs "export ").length = 7 from rfl]; omega)]
      rw [List.getElem?_append_left (by omega)] at h6
      have hsp : k[6]? = some ' ' := by rw [h6]; rfl
      obtain ⟨hh, hg⟩ := List.getElem?_eq_some_iff.1 hsp
      have hmem : ' ' ∈ k := hg ▸ List.getElem_mem hh
      have := (valid_key_facts k hk).2 ' ' hmem
      exact absurd this (by decide)

end Envox

namespace Envox

theorem goodVal_parts (v : List Char) (h : goodVal v = true) :
    (∀ c ∈ v, c ≠ '\n') ∧ v.head?.all (fun c => !isJsWs c) = true ∧
      v.getLast?.all (fun c => !isJsWs c) = true ∧ hasAdj '\\' v = false := by
  simp only [goodVal, Bool.and_eq_true, Bool.not_eq_true'] at h
  obtain ⟨⟨⟨h1, h2⟩, h3⟩, h4⟩ := h
  refine ⟨?_, h2, h3, h4⟩
  intro c hc
  have := List.all_eq_true.1 h1 c hc
  simpa using this

theorem quoteVal_no_nl (v : List Char) (hnl : ∀ c ∈ v, c ≠ '\n') :
    ∀ c ∈ quoteVal v, c ≠ '\n' := by
  intro c hc
  unfold quoteVal at hc
  by_cases hq : needsQuotingB v = true
  · rw [if_pos hq] at hc
    rcases List.mem_cons.1 hc with rfl | hc2
    · decide
    · rcases List.mem_append.1 hc2 with h3 | h3
      · rcases escQuote_subset v c h3 with rfl | h4
        · decide
        · exact hnl c h4
      · rcases List.mem_singleton.1 h3 with rfl
        decide
  · rw [if_neg hq] at hc
    exact hnl c hc

theorem entryLine_no_nl (k v : List Char) (hk : isValidKey k = true)
    (hnl : ∀ c ∈ v, c ≠ '\n') : ∀ c ∈ entryLine [] k v, c ≠ '\n' := by
  intro c hc
  simp only [entryLine, List.nil_append, List.mem_append, List.mem_cons] at hc
  rcases hc with hc | rfl | hc
  · exact (identChar_ne_chars c ((valid_key_facts k hk).2 c hc)).2.2.1
  · decide
  · exact quoteVal_no_nl v hnl c hc

theorem getLast?_append_ne (l₁ l₂ : List Char) (h : l₂ ≠ []) :
    (l₁ ++ l₂).getLast? = l₂.getLast? := by
  rw [List.getLast?_append]
  cases hl : l₂.getLast? with
  | some a => rfl
  | none => exact absurd (List.getLast?_eq_none_iff.1 hl) h

theorem parseLine_entry (k v : List Char) (n : Nat) (env : Lk)
    (hk : isValidKey k = true) (hv : goodVal v = true) :
    parseLine defaults (entryLine [] k v) n env = .ok (some ⟨k, v, n⟩) := by
  obtain ⟨hknil, hkid⟩ := valid_key_facts k hk
  obtain ⟨hnl, hvh, hvl, hadj⟩ := goodVal_parts v hv
  have hline : entryLine [] k v = k ++ '=' :: quoteVal v := by simp [entryLine]
  obtain ⟨c0, k', rfl⟩ : ∃ c0 k', k = c0 :: k' := by
    cases k with
    | nil => exact absurd rfl hknil
    | cons a b => exact ⟨a, b, rfl⟩
  have hc0 : isIdentChar c0 = true := hkid c0 (by simp)
  have hkws : ∀ c ∈ c0 :: k', isJsWs c = false :=
    fun c hc => identChar_not_ws c (hkid c hc)
  -- the trailing character of the serialized line is never whitespace
  have hlastline : (c0 :: k' ++ '=' :: quoteVal v).getLast?.all (fun c => !isJsWs c) = true := by
    by_cases hq : needsQuotingB v = true
    · have : quoteVal v = '"' :: escQuote v ++ ['"'] := by simp [quoteVal, hq]
      rw [this, show (c0 :: k' ++ '=' :: ('"' :: escQuote v ++ ['"'])) =
        ((c0 :: k' ++ '=' :: '"' :: escQuote v) ++ ['"']) by simp]
      rw [List.getLast?_concat]
      decide
    · have hqv : quoteVal v = v := by simp [quoteVal, hq]
      rw [hqv]
      cases hvnil : v with
      | nil =>
        rw [show (c0 :: k' ++ '=' :: ([] : List Char)) = ((c0 :: k') ++ ['=']) by simp]
        rw [List.getLast?_concat]
        decide
      | cons x xs =>
        rw [getLast?_append_ne _ _ (by simp)]
        rw [show ('=' :: (x :: xs)).getLast? = (x :: xs).getLast? from by
          rw [List.getLast?_cons_cons]]
        rw [← hvnil]
        exact hvl
  have htrim : trim (c0 :: k' ++ '=' :: quoteVal v) = c0 :: k' ++ '=' :: quoteVal v := by
    refine trim_eq_self _ ?_ hlastline
    simp [List.head?_cons, hkws c0 (by simp)]
  have hempty : (c0 :: k' ++ '=' :: quoteVal v).isEmpty = false := by simp
  have hcomment : startsWithC (c0 :: k' ++ '=' :: quoteVal v) '#' = false := by
    simp [startsWithC, (identChar_ne_chars c0 hc0).2.1]
  have hexp := not_startsWith_export (c0 :: k') (quoteVal v) hk
  have hidx : indexOfC '=' (c0 :: k' ++ '=' :: quoteVal v) = some (c0 :: k').length :=
    indexOfC_append '=' (c0 :: k') (quoteVal v)
      (fun d hd => (identChar_ne_chars d (hkid d hd)).1)
  have htake : (c0 :: k' ++ '=' :: quoteVal v).take (c0 :: k').length = c0 :: k' :=
    List.take_left _ _
  have hdrop : (c0 :: k' ++ '=' :: quoteVal v).drop ((c0 :: k').length + 1) = quoteVal v := by
    rw [show (c0 :: k' ++ '=' :: quoteVal v) = ((c0 :: k' ++ ['=']) ++ quoteVal v) by simp]
    rw [show (c0 :: k').length + 1 = (c0 :: k' ++ ['=']).length by simp]
    exact List.drop_left _ _
  have htrimk : trim (c0 :: k') = c0 :: k' := by
    refine trim_eq_self _ ?_ ?_
    · simp [List.head?_cons, hkws c0 (by simp)]
    · have hne : (c0 :: k') ≠ [] := by simp
      rw [List.getLast?_eq_getLast _ hne]
      simp [hkws _ (List.getLast_mem hne)]
  have hpv : processValue defaults env (quoteVal v) = v := by
    by_cases hq : needsQuotingB v = true
    · have hqv : quoteVal v = '"' :: escQuote v ++ ['"'] := by simp [quoteVal, hq]
      rw [hqv]
      simp only [processValue, handleQuotes_dq, unescapeDq_escQuote v hadj]
      simp [defaults, trim_eq_self v hvh hvl]
    · have hqv : quoteVal v = v := by simp [quoteVal, hq]
      rw [hqv]
      simp only [processValue, handleQuotes_plain v (by simpa using hq)]
      simp [defaults, trim_eq_self v hvh hvl]
  rw [hline]
  simp only [parseLine, htrim, hempty, hcomment, hexp, hidx, htake, hdrop, htrimk, hk, hpv,
    Bool.and_false, Bool.not_true, Bool.false_eq_true, if_false]

end Envox

namespace Envox

/-- The environment after setting every entry of `m` (in order). -/
def envAfter (m : RMap) (e : Lk) : Lk :=
  m.foldl (fun acc p => setEnv acc p.1 p.2) e

theorem scanLines_append (o : Options) :
    ∀ (ls₁ ls₂ : List (List Char)) (n : Nat) (st : ScanSt),
      scanLines o (ls₁ ++ ls₂) n st =
        scanLines o ls₂ (n + ls₁.length) (scanLines o ls₁ n st) := by
  intro ls₁
  induction ls₁ with
  | nil => intro ls₂ n st; simp [scanLines]
  | cons l t ih =>
    intro ls₂ n st
    simp only [List.cons_append, scanLines, List.length_cons, List.append_eq]
    rw [ih]
    congr 1
    omega

theorem scanLines_serialized :
    ∀ (m : RMap) (n : Nat) (st : ScanSt),
      (∀ p ∈ m, isValidKey p.1 = true ∧ goodVal p.2 = true) →
      scanLines defaults (m.map (fun p => entryLine [] p.1 p.2)) n st =
        ⟨st.vars ++ bindingsFrom n m, st.errs, envAfter m st.env⟩ := by
  intro m
  induction m with
  | nil => intro n st _; simp [scanLines, bindingsFrom, envAfter]
  | cons p t ih =>
    intro n st h
    obtain ⟨hk, hv⟩ := h p (List.mem_cons_self p t)
    simp only [List.map_cons, scanLines, scanStep,
      parseLine_entry p.1 p.2 n st.env hk hv]
    rw [ih (n + 1) _ (fun q hq => h q (List.mem_cons_of_mem p hq))]
    simp [bindingsFrom, envAfter]

theorem objSet_fresh (m : RMap) (k v : List Char)
    (h : m.any (fun p => p.1 == k) = false) : objSet m k v = m ++ [(k, v)] := by
  simp [objSet, h]

theorem toObject_foldl_fresh :
    ∀ (m acc : RMap) (n : Nat),
      (m.map Prod.fst).Nodup →
      (∀ p ∈ m, acc.any (fun q => q.1 == p.1) = false) →
      List.foldl (fun mm x => objSet mm x.key x.value) acc (bindingsFrom n m) = acc ++ m := by
  intro m
  induction m with
  | nil => intro acc n _ _; simp [bindingsFrom]
  | cons p t ih =>
    intro acc n hnd hfresh
    simp only [bindingsFrom, List.foldl_cons]
    rw [objSet_fresh acc p.1 p.2 (hfresh p (List.mem_cons_self p t))]
    have hnd' : (t.map Prod.fst).Nodup := by
      simp only [List.map_cons, List.nodup_cons] at hnd
      exact hnd.2
    have hknot : p.1 ∉ t.map Prod.fst := by
      simp only [List.map_cons, List.nodup_cons] at hnd
      exact hnd.1
    rw [ih (acc ++ [(p.1, p.2)]) (n + 1) hnd' ?_]
    · simp
    · intro q hq
      simp only [List.any_append, Bool.or_eq_false_iff]
      refine ⟨hfresh q (List.mem_cons_of_mem p hq), ?_⟩
      simp only [List.any_cons, List.any_nil, Bool.or_false, beq_eq_false_iff_ne]
      intro he
      exact hknot (he ▸ List.mem_map_of_mem Prod.fst hq)

theorem toObject_bindingsFrom (m : RMap) (n : Nat) (hnd : (m.map Prod.fst).Nodup) :
    toObject (bindingsFrom n m) = m := by
  unfold toObject
  rw [toObject_foldl_fresh m [] n hnd (fun p _ => rfl)]
  simp

theorem parseS_roundTrip (m : RMap) (hnd : (m.map Prod.fst).Nodup)
    (hgood : ∀ p ∈ m, isValidKey p.1 = true ∧ goodVal p.2 = true) :
    parseS defaults none (.inl (fromObject false m)) = .success (bindingsFrom 1 m) m := by
  cases m with
  | nil => decide
  | cons p t =>
    have hall : ∀ l ∈ (p :: t).map (fun q => entryLine [] q.1 q.2), ∀ c ∈ l, c ≠ '\n' := by
      intro l hl
      obtain ⟨q, hq, rfl⟩ := List.mem_map.1 hl
      exact entryLine_no_nl q.1 q.2 (hgood q hq).1 (goodVal_parts q.2 (hgood q hq).2).1
    have hsplit : splitOnC '\n' (fromObject false (p :: t)) =
        (p :: t).map (fun q => entryLine [] q.1 q.2) := by
      have hio : fromObject false (p :: t) =
          joinC '\n' ((p :: t).map (fun q => entryLine [] q.1 q.2)) := by
        simp [fromObject]
      rw [hio]
      exact splitOnC_joinC '\n' _ (by simp) hall
    have hscan := scanLines_serialized (p :: t) 1 ⟨[], [], emptyEnv⟩ hgood
    simp only [parseS, hsplit, hscan, List.nil_append]
    simp [toObject_bindingsFrom (p :: t) 1 hnd]

end Envox

namespace Envox

theorem find?_map_keyPres (t : RMap) (f : List Char × List Char → List Char × List Char)
    (hf : ∀ p, (f p).1 = p.1) (k2 : List Char) :
    (t.map f).find? (fun q => q.1 == k2) = (t.find? (fun q => q.1 == k2)).map f := by
  induction t with
  | nil => rfl
  | cons p r ih =>
    simp only [List.map_cons, List.find?_cons]
    rw [hf p]
    cases hp : (p.1 == k2) with
    | true => rfl
    | false => exact ih

theorem getObj_objSet (m : RMap) (k v k2 : List Char) :
    getObj (objSet m k v) k2 = if k = k2 then some v else getObj m k2 := by
  by_cases hany : m.any (fun p => p.1 == k) = true
  · rw [show objSet m k v = m.map (fun p => if p.1 == k then (p.1, v) else p) by
      simp [objSet, hany]]
    unfold getObj
    rw [find?_map_keyPres m _ (fun p => by by_cases h : (p.1 == k) = true <;> simp [h]) k2]
    by_cases hk : k = k2
    · subst hk
      obtain ⟨p0, hp0mem, hp0⟩ := List.any_eq_true.1 hany
      cases hx : m.find? (fun q => q.1 == k) with
      | none => exact absurd hp0 (List.find?_eq_none.1 hx p0 hp0mem)
      | some x =>
        have hx1 := List.find?_some hx
        simp only [beq_iff_eq] at hx1
        simp [hx1]
    · cases hfind : m.find? (fun q => q.1 == k2) with
      | none => simp [hk]
      | some x =>
        have hx2 := List.find?_some hfind
        simp only [beq_iff_eq] at hx2
        have hb : x.1 ≠ k := by
          rw [hx2]
          exact fun hh => hk hh.symm
        simp [hb, hk]
  · have hany2 : m.any (fun p => p.1 == k) = false := by
      cases h2 : m.any (fun p => p.1 == k) with
      | true => exact absurd h2 hany
      | false => rfl
    rw [objSet_fresh m k v hany2]
    unfold getObj
    rw [List.find?_append]
    have hnone : m.find? (fun q => q.1 == k) = none :=
      List.find?_eq_none.2 (List.any_eq_false.1 hany2)
    by_cases hk : k = k2
    · subst hk
      rw [hnone]
      simp [List.find?_cons]
    · have hb : (k == k2) = false := beq_eq_false_iff_ne.2 hk
      cases hfind : m.find? (fun q => q.1 == k2) with
      | none => simp [List.find?_cons, hb, hk]
      | some x => simp [hk]

theorem getObj_toObject_foldl : ∀ (vars : List EnvVar) (m : RMap) (k : List Char),
    getObj (vars.foldl (fun mm x => objSet mm x.key x.value) m) k =
      vars.foldl (fun acc x => if x.key = k then some x.value else acc) (getObj m k) := by
  intro vars
  induction vars with
  | nil => intro m k; rfl
  | cons x t ih =>
    intro m k
    simp only [List.foldl_cons]
    rw [ih (objSet m x.key x.value) k, getObj_objSet]

theorem foldl_eq_revFind : ∀ (vars : List EnvVar) (acc : Option (List Char)) (k : List Char),
    vars.foldl (fun a x => if x.key = k then some x.value else a) acc =
      (match vars.reverse.find? (fun x => x.key == k) with
       | some x => some x.value
       | none => acc) := by
  intro vars
  induction vars with
  | nil => intro acc k; rfl
  | cons x t ih =>
    intro acc k
    simp only [List.foldl_cons, List.reverse_cons]
    rw [ih]
    rw [List.find?_append]
    cases hf : t.reverse.find? (fun y => y.key == k) with
    | some y => rfl
    | none =>
      by_cases hk : x.key = k
      · have : (x.key == k) = true := by simpa using hk
        simp [List.find?, this, hk, Option.orElse]
      · have : (x.key == k) = false := by simpa using hk
        simp [List.find?, this, hk, Option.orElse]

theorem getObj_toObject_lastWins (vars : List EnvVar) (k : List Char) :
    getObj (toObject vars) k =
      (vars.reverse.find? (fun x => x.key == k)).map (fun x => x.value) := by
  unfold toObject
  rw [getObj_toObject_foldl vars [] k, foldl_eq_revFind]
  cases h : vars.reverse.find? (fun x => x.key == k) <;> simp [getObj]

end Envox

namespace Envox

theorem escQuote_eq_flatMap (v : List Char) :
    escQuote v = v.flatMap (fun c => if c = '"' then ['\\', '"'] else [c]) := by
  induction v with
  | nil => rfl
  | cons c r ih =>
    by_cases hc : c = '"' <;> simp [escQuote, hc, ih]

/-- The example lookup used to probe the bare-`$NAME` boundary rule: both
`BASE` and `BASE_world` are bound, so the two regex variants are told apart
by which name the expansion actually looks up. -/
def env5 : Lk := fun k =>
  if k = cs "BASE" then some (cs "hello")
  else if k = cs "BASE_world" then some (cs "ZZZ") else none

/-- The concrete map used to witness the round-trip law: values cover the
unquoted case, whitespace, `$`, an embedded escaped quote, and a single
backslash. -/
def mEx : RMap :=
  [(cs "A", cs "1"), (cs "B", cs "two words"), (cs "C", cs "special$char"),
   (cs "D", cs "say \"hi\""), (cs "E", cs "a\\b")]

/-- Claim C1 (corrected), counterexample: the claim's own instance — the raw
double-quoted value `"  hi  "` with `trimValues = true` — does not yield the
trimmed unquoted content under `index.ts`'s `Envox.parseLine`: that variant
trims before unquoting and never re-trims, so the inner whitespace survives. -/
theorem C1_counterexample :
    IndexTs.parseLine defaults (cs "K=\"  hi  \"") 1 emptyEnv =
      .ok (some ⟨cs "K", cs "  hi  ", 1⟩) ∧ cs "  hi  " ≠ cs "hi" :=
  ⟨by decide, by decide⟩

/-- Claim C1 (corrected): in the map-mode variant and `utils.ts`,
`processValue` applies unquoting first, then trimming, then expansion — so
`K="  hi  "` parses to `hi` there; but `index.ts`'s `Envox.processValue`
trims before unquoting, so the same line parses to `  hi  ` under it. -/
theorem C1_value_order :
    (∀ (o : Options) (env : Lk) (v : List Char),
        processValue o env v =
          if o.expandVariables then
            expandL env (if o.trimValues then trim (handleQuotes v) else handleQuotes v)
          else if o.trimValues then trim (handleQuotes v) else handleQuotes v)
    ∧ parseLine defaults (cs "K=\"  hi  \"") 1 emptyEnv = .ok (some ⟨cs "K", cs "hi", 1⟩)
    ∧ IndexTs.parseLine defaults (cs "K=\"  hi  \"") 1 emptyEnv =
        .ok (some ⟨cs "K", cs "  hi  ", 1⟩) :=
  ⟨fun _ _ _ => rfl, by decide, by decide⟩

/-- Claim C2 (corrected), counterexample: a value containing a backslash is
serialized with that backslash kept single, not doubled — the serializer's
escaping is `value.replace(/"/g, '\\"')`, which never touches backslashes. -/
theorem C2_counterexample :
    fromObject false [(cs "KEY", cs "a\\b")] = cs "KEY=\"a\\b\"" ∧
      cs "KEY=\"a\\b\"" ≠ cs "KEY=\"a\\\\b\"" :=
  ⟨by decide, by decide⟩

/-- Claim C2 (corrected): each serialized entry is quoted iff `needsQuoting`
holds of the value (whitespace, `"`, `'`, `$` or `\` present), and only the
embedded `"` characters are escaped (to `\"`); backslashes are emitted as
they are, so a backslash does trigger quoting but is not doubled. -/
theorem C2_serializer_escaping :
    (∀ pfx k v : List Char,
        entryLine pfx k v =
          pfx ++ k ++ '=' :: (if needsQuotingB v then '"' :: escQuote v ++ ['"'] else v))
    ∧ (∀ v : List Char,
        escQuote v = v.flatMap (fun c => if c = '"' then ['\\', '"'] else [c]))
    ∧ needsQuotingB (cs "a\\b") = true
    ∧ fromObject false [(cs "KEY", cs "a\\b")] = cs "KEY=\"a\\b\""
    ∧ fromObject false [(cs "K", cs "say \"hi\"")] = cs "K=\"say \\\"hi\\\"\"" :=
  ⟨fun _ _ _ => rfl, escQuote_eq_flatMap, by decide, by decide, by decide⟩

/-- Claim C3 (corrected), counterexample: the value `a\\b` (two adjacent
backslashes) does not round-trip: the serializer emits it verbatim inside
quotes, and unquoting collapses `\\` to `\`, so the parsed map holds `a\b`. -/
theorem C3_counterexample :
    parseS defaults none (.inl (fromObject false [(cs "K", cs "a\\\\b")])) =
      .success [⟨cs "K", cs "a\\b", 1⟩] [(cs "K", cs "a\\b")] ∧
      ([(cs "K", cs "a\\b")] : RMap) ≠ [(cs "K", cs "a\\\\b")] :=
  ⟨by decide, by decide⟩

/-- Claim C3 (corrected): for maps with valid, distinct keys whose values
contain no newline, no leading/trailing whitespace, and no two adjacent
backslashes, serializing with `fromObject`, parsing with the default
configuration and flattening yields exactly the original map (values with
`"` or a single `\` escape-round-trip; adjacent backslashes do not). -/
theorem C3_roundTrip_amended (m : RMap) (hnd : (m.map Prod.fst).Nodup)
    (hgood : ∀ p ∈ m, isValidKey p.1 = true ∧ goodVal p.2 = true) :
    parseS defaults none (.inl (fromObject false m)) = .success (bindingsFrom 1 m) m :=
  parseS_roundTrip m hnd hgood

/-- Witness for C3: the round-trip theorem applied to the concrete map
`mEx`, whose hypotheses hold by computation. -/
theorem C3_witness :
    ((mEx.map Prod.fst).Nodup ∧ (∀ p ∈ mEx, isValidKey p.1 = true ∧ goodVal p.2 = true)) ∧
      parseS defaults none (.inl (fromObject false mEx)) = .success (bindingsFrom 1 mEx) mEx :=
  ⟨⟨by decide, by decide⟩, C3_roundTrip_amended mEx (by decide) (by decide)⟩

/-- Claim C4 (confirmed): with expansion enabled, text mode expands each
value against the bindings of earlier lines only — `FOO=foo`,
`BAR=${FOO}-bar`, `BAZ=$BAR-baz` resolves to
`{FOO: foo, BAR: foo-bar, BAZ: foo-bar-baz}`, and a forward reference
expands to the empty string. -/
theorem C4_progressive_expansion :
    parseS defaultsX none (.inl (cs "FOO=foo\nBAR=$\x7bFOO\x7d-bar\nBAZ=$BAR-baz")) =
      .success
        [⟨cs "FOO", cs "foo", 1⟩, ⟨cs "BAR", cs "foo-bar", 2⟩, ⟨cs "BAZ", cs "foo-bar-baz", 3⟩]
        [(cs "FOO", cs "foo"), (cs "BAR", cs "foo-bar"), (cs "BAZ", cs "foo-bar-baz")]
    ∧ parseS defaultsX none (.inl (cs "A=$B\nB=x")) =
        .success [⟨cs "A", [], 1⟩, ⟨cs "B", cs "x", 2⟩] [(cs "A", []), (cs "B", cs "x")] :=
  ⟨by decide, by decide⟩

/-- Claim C5 (corrected), counterexample: under `expandValue` (the
`constants.ts` regex, used by the map-mode variant and `utils.ts`),
`$BASE_world` does not look up the full `BASE_world`: with both `BASE` and
`BASE_world` bound, the result is `hello_world` (name `BASE`, literal
`_world`), not the value of `BASE_world`. -/
theorem C5_counterexample :
    expandL env5 (cs "$BASE_world") = cs "hello_world" ∧
      lookupOr env5 (cs "BASE_world") = cs "ZZZ" ∧
      expandL env5 (cs "$BASE_world") ≠ lookupOr env5 (cs "BASE_world") :=
  ⟨by decide, by decide, by decide⟩

/-- Claim C5 (corrected): the two variants disagree.  The inline `index.ts`
regex is greedy as the claim states (`$BASE_world` looks up `BASE_world`),
but `constants.ts`'s `VAR_EXPANSION` matches the name lazily up to a
lookahead for a non-alphanumeric character, so an underscore ends the name:
`$BASE_world` looks up `BASE` and keeps `_world`, matching the repo's test. -/
theorem C5_amended :
    expandG env5 (cs "$BASE_world") = cs "ZZZ"
    ∧ expandL env5 (cs "$BASE_world") = cs "hello_world"
    ∧ parseS defaultsX none (.inl (cs "BASE=hello\nEXPANDED=$BASE_world")) =
        .success [⟨cs "BASE", cs "hello", 1⟩, ⟨cs "EXPANDED", cs "hello_world", 2⟩]
          [(cs "BASE", cs "hello"), (cs "EXPANDED", cs "hello_world")] :=
  ⟨by decide, by decide, by decide⟩

/-- Claim C6 (confirmed): if the line scan collected any error, the parse
returns `Failure` with exactly those errors, for every configured schema
(the schema is never consulted — the result does not depend on it); and the
scan itself never aborts early: scanning `ls₁ ++ ls₂` always continues
through `ls₂` from the state reached after `ls₁`, whatever errors occurred. -/
theorem C6_errors_skip_schema :
    (∀ (o : Options) (sch : Option SchemaFn) (content : List Char),
        (scanLines o (splitOnC '\n' content) 1 ⟨[], [], emptyEnv⟩).errs ≠ [] →
        parseS o sch (.inl content) =
          .failure (scanLines o (splitOnC '\n' content) 1 ⟨[], [], emptyEnv⟩).errs)
    ∧ (∀ (o : Options) (ls₁ ls₂ : List (List Char)) (n : Nat) (st : ScanSt),
        scanLines o (ls₁ ++ ls₂) n st =
          scanLines o ls₂ (n + ls₁.length) (scanLines o ls₁ n st)) := by
  constructor
  · intro o sch content h
    have hfalse : (scanLines o (splitOnC '\n' content) 1 ⟨[], [], emptyEnv⟩).errs.isEmpty = false :=
      List.isEmpty_eq_false.2 h
    simp only [parseS, hfalse]
    simp
  · exact scanLines_append

/-- Witness for C6: the one-line input `1A=x` has an invalid key, so even
with a schema configured the outcome is the failure with that single error. -/
theorem C6_witness :
    (scanLines defaults (splitOnC '\n' (cs "1A=x")) 1 ⟨[], [], emptyEnv⟩).errs ≠ [] ∧
      parseS defaults (some (fun r => .ok r)) (.inl (cs "1A=x")) =
        .failure (scanLines defaults (splitOnC '\n' (cs "1A=x")) 1 ⟨[], [], emptyEnv⟩).errs :=
  ⟨by decide, C6_errors_skip_schema.1 defaults (some (fun r => .ok r)) (cs "1A=x") (by decide)⟩

/-- Claim C7 (confirmed): the resolved map assigns every key the value of
its last binding (the lookup equals `find?` over the reversed binding list),
while the ordered binding list keeps every occurrence: parsing `A=1`, `A=2`
yields both bindings in order and the resolved map `{A: 2}`. -/
theorem C7_last_wins :
    (∀ (vars : List EnvVar) (k : List Char),
        getObj (toObject vars) k =
          (vars.reverse.find? (fun x => x.key == k)).map (fun x => x.value))
    ∧ parseS defaults none (.inl (cs "A=1\nA=2")) =
        .success [⟨cs "A", cs "1", 1⟩, ⟨cs "A", cs "2", 2⟩] [(cs "A", cs "2")] :=
  ⟨getObj_toObject_lastWins, by decide⟩

/-- Claim C8 (corrected), counterexample: a value that is a single `"` (or a
single `'`) is not returned unchanged — it starts and ends with the quote,
so `handleQuotes` strips it to the empty string. -/
theorem C8_counterexample :
    handleQuotes (cs "\"") = [] ∧ cs "\"" ≠ ([] : List Char) ∧ handleQuotes (cs "'") = [] :=
  ⟨by decide, by decide, by decide⟩

/-- Claim C8 (corrected): whenever the trimmed value does not both start and
end with `"` nor both start and end with `'`, `handleQuotes` returns the
original non-trimmed value unchanged; but a trimmed value consisting of a
single quote character counts as wrapped and unquotes to the empty string. -/
theorem C8_amended :
    (∀ v : List Char,
        (startsWithC (trim v) '"' && endsWithC (trim v) '"') = false →
        (startsWithC (trim v) '\'' && endsWithC (trim v) '\'') = false →
        handleQuotes v = v)
    ∧ handleQuotes (cs "\"") = [] ∧ handleQuotes (cs "'") = [] := by
  refine ⟨?_, by decide, by decide⟩
  intro v h1 h2
  simp [handleQuotes, h1, h2]

/-- Witness for C8: the unquoted value `abc` satisfies both side conditions
and is returned unchanged. -/
theorem C8_witness :
    ((startsWithC (trim (cs "abc")) '"' && endsWithC (trim (cs "abc")) '"') = false) ∧
      handleQuotes (cs "abc") = cs "abc" :=
  ⟨by decide, C8_amended.1 (cs "abc") (by decide) (by decide)⟩

/-- Claim C9 (confirmed): map mode never produces a parse error (the outcome
is always `Success` when no schema is configured), every binding carries
`sourceLine = 0`, invalid keys and undefined values are silently dropped,
and expansion consults the complete filtered map — `A` referencing the
later entry `B` resolves to `x` in map mode, while the same data in text
mode leaves the forward reference empty. -/
theorem C9_map_mode :
    (∀ (o : Options) (entries : List (List Char × Option (List Char))),
        ∃ vars data, parseS o none (.inr entries) = .success vars data)
    ∧ (∀ (o : Options) (entries : List (List Char × Option (List Char))),
        (mapModeVars o entries).all (fun v => v.line == 0) = true)
    ∧ parseS defaults none
        (.inr [(cs "1A", some (cs "x")), (cs "B", none), (cs "C", some (cs "1"))]) =
        .success [⟨cs "C", cs "1", 0⟩] [(cs "C", cs "1")]
    ∧ parseS defaultsX none (.inr [(cs "A", some (cs "$B")), (cs "B", some (cs "x"))]) =
        .success [⟨cs "A", cs "x", 0⟩, ⟨cs "B", cs "x", 0⟩]
          [(cs "A", cs "x"), (cs "B", cs "x")]
    ∧ parseS defaultsX none (.inl (cs "A=$B\nB=x")) =
        .success [⟨cs "A", [], 1⟩, ⟨cs "B", cs "x", 2⟩] [(cs "A", []), (cs "B", cs "x")] := by
  refine ⟨?_, ?_, by decide, by decide, by decide⟩
  · intro o entries
    exact ⟨mapModeVars o entries, toObject (mapModeVars o entries), rfl⟩
  · intro o entries
    simp only [mapModeVars, List.all_eq_true]
    intro x hx
    obtain ⟨p, _, rfl⟩ := List.mem_map.1 hx
    rfl

/-- Claim C10 (confirmed): the single line `export<TAB>KEY=value` is
classified as an env file (`isEnvFile` strips `export` plus any whitespace)
but fails to parse with the default configuration (`parseLine` strips only
the exact prefix `export ` with one space, so the key becomes
`export<TAB>KEY` and is rejected) — in both parser variants. -/
theorem C10_classifier_divergence :
    isEnvFileB (cs "export\tKEY=value") = true
    ∧ parseS defaults none (.inl (cs "export\tKEY=value")) =
        .failure [⟨1, cs "Invalid environment variable key: export\tKEY",
          cs "export\tKEY=value"⟩]
    ∧ IndexTs.parseLine defaults (cs "export\tKEY=value") 1 emptyEnv =
        .error ⟨1, cs "Invalid environment variable key: export\tKEY",
          cs "export\tKEY=value"⟩ :=
  ⟨by decide, by decide, by decide⟩

end Envox
